import Mathlib

/-!
# Verification of the LSB steganography codec

Shallow embedding of the core codec of `Steganography/LSB Steganography.py`:
`encode_lsb` (hide a message in the least-significant bits of RGB pixels)
and `decode_lsb` (recover it, scanning for the `|||END|||` delimiter).
Image-file I/O is out of scope; pixels are modelled as the list of RGB
triples handed to the codec (`list(img.getdata())`), messages as lists of
characters.
-/

namespace Stego

/-- A pixel as PIL hands it over: an RGB triple of unbounded naturals
(in practice each channel lies in `[0, 255]`). -/
abbrev Pixel := Nat × Nat × Nat

/-- The end-of-message marker `"|||END|||"` appended by `encode_lsb`. -/
def delimiter : List Char := "|||END|||".data

/-- Binary digits of `n`, most-significant first, no leading zeros
(empty for `0`): the recursion `digits n = digits (n / 2) ++ [n mod 2]`
behind Python's `format(n, 'b')`, written with a structural fuel argument
(`fuel ≥ n` suffices since `n` halves each step) so that the kernel can
evaluate it; `binDigits_rec` below proves the recurrence. -/
def binDigitsAux : Nat → Nat → List Bool
  | _, 0 => []
  | 0, _ => []
  | fuel+1, n+1 => binDigitsAux fuel ((n+1) / 2) ++ [(n+1) % 2 == 1]

/-- Binary digits of `n`, most-significant first, no leading zeros. -/
def binDigits (n : Nat) : List Bool := binDigitsAux n n

/-- Python's `format(n, 'b')`: minimal binary representation, `"0"` for zero. -/
def natToBinary (n : Nat) : List Bool :=
  if n = 0 then [false] else binDigits n

/-- Python's `format(n, '08b')`: binary representation left-padded with
zeros to at least 8 digits (longer than 8 when `n ≥ 256`). -/
def format08b (n : Nat) : List Bool :=
  List.replicate (8 - (natToBinary n).length) false ++ natToBinary n

/-- `format(ord(char), '08b')` for one character. -/
def charBits (c : Char) : List Bool := format08b c.toNat

/-- `''.join(format(ord(char), '08b') for char in s)`: the bitstream of a
character sequence, MSB-first within each unit, units in order. -/
def bitstream (s : List Char) : List Bool :=
  (s.map charBits).flatten

/-- `channel = (channel & 0xFE) | bit`: overwrite the least-significant
bit of a channel value. -/
def setLSB (v : Nat) (b : Bool) : Nat :=
  (v &&& 0xFE) ||| (if b then 1 else 0)

/-- The encoding loop of `encode_lsb`: walk the pixels, writing the next
unconsumed bit into the red, then green, then blue LSB; once the bits are
exhausted the remaining channels and pixels are copied unchanged. -/
def encodePixels : List Pixel → List Bool → List Pixel
  | [], _ => []
  | (r, g, b) :: rest, [] => (r, g, b) :: encodePixels rest []
  | (r, g, b) :: rest, [b0] => (setLSB r b0, g, b) :: encodePixels rest []
  | (r, g, b) :: rest, [b0, b1] => (setLSB r b0, setLSB g b1, b) :: encodePixels rest []
  | (r, g, b) :: rest, b0 :: b1 :: b2 :: bs =>
      (setLSB r b0, setLSB g b1, setLSB b b2) :: encodePixels rest bs

/-- Outcome of `encode_lsb`: either the new pixel sequence, or the
capacity failure, which reports the maximum character count printed by
`"Message too long! Maximum ... characters."` (that is,
`len(pixels) * 3 // 8`). -/
inductive EncodeResult where
  | ok (pixels : List Pixel)
  | capacityExceeded (maxChars : Nat)
deriving DecidableEq, Repr

/-- `encode_lsb`: frame the message with the delimiter, expand to the
bitstream, fail when it exceeds `len(pixels) * 3`, otherwise write the
bits across the pixel LSBs. -/
def encode_lsb (pixels : List Pixel) (message : List Char) : EncodeResult :=
  let bits := bitstream (message ++ delimiter)
  if bits.length > pixels.length * 3 then
    .capacityExceeded (pixels.length * 3 / 8)
  else
    .ok (encodePixels pixels bits)

/-- `r & 1` as a Boolean: the least-significant bit of a channel. -/
def getLSB (v : Nat) : Bool := v &&& 1 == 1

/-- The extraction loop of `decode_lsb`: the LSB of red, green, blue of
every pixel, in pixel order. -/
def extractBits (pixels : List Pixel) : List Bool :=
  (pixels.map (fun p => [getLSB p.1, getLSB p.2.1, getLSB p.2.2])).flatten

/-- `int(byte, 2)` on a string of binary digits, MSB first. -/
def bitsToNat (l : List Bool) : Nat :=
  l.foldl (fun acc b => 2 * acc + (if b then 1 else 0)) 0

/-- `message.replace('|||END|||', '')`: delete every (left-to-right,
non-overlapping) occurrence of the nine-character delimiter.  Written
with a nine-deep pattern so the recursion is structural (a list shorter
than the delimiter cannot contain it); `removeDelim_eq` below proves the
uniform scan-one-character recurrence. -/
def removeDelim : List Char → List Char
  | c0 :: c1 :: c2 :: c3 :: c4 :: c5 :: c6 :: c7 :: c8 :: rest =>
    if delimiter.isPrefixOf (c0 :: c1 :: c2 :: c3 :: c4 :: c5 :: c6 :: c7 :: c8 :: rest) then
      removeDelim rest
    else c0 :: removeDelim (c1 :: c2 :: c3 :: c4 :: c5 :: c6 :: c7 :: c8 :: rest)
  | c :: cs => c :: removeDelim cs
  | [] => []

/-- The conversion loop of `decode_lsb`: take the bits eight at a time
(a final group of fewer than eight bits is skipped), turn each group into
the character `chr(int(byte, 2))`, append it to the running message, and
after each character test whether the message ends with the delimiter;
on the first match strip the delimiter (`replace`) and return. Falling
off the end returns `none` ("no hidden message found"). -/
def decodeLoop : List Bool → List Char → Option (List Char)
  | b0 :: b1 :: b2 :: b3 :: b4 :: b5 :: b6 :: b7 :: rest, msg =>
    let c := Char.ofNat (bitsToNat [b0, b1, b2, b3, b4, b5, b6, b7])
    let msg2 := msg ++ [c]
    if delimiter.isSuffixOf msg2 then some (removeDelim msg2)
    else decodeLoop rest msg2
  | _, _ => none

/-- `decode_lsb`: extract the LSB stream of the pixels and run the
conversion/delimiter-scanning loop on it. -/
def decode_lsb (pixels : List Pixel) : Option (List Char) :=
  decodeLoop (extractBits pixels) []

/-- The character stream the decoder derives from a bit list: complete
8-bit groups only, each read MSB-first as a character code. -/
def toChars : List Bool → List Char
  | b0 :: b1 :: b2 :: b3 :: b4 :: b5 :: b6 :: b7 :: rest =>
    Char.ofNat (bitsToNat [b0, b1, b2, b3, b4, b5, b6, b7]) :: toChars rest
  | _ => []

/-- Channel accessor: channel `0` is red, `1` is green, `2` is blue. -/
def chan (p : Pixel) (k : Nat) : Nat :=
  if k = 0 then p.1 else if k = 1 then p.2.1 else p.2.2

/-- The seven high-order bits of each channel: `channel & 0xFE`. -/
def highBits (p : Pixel) : Pixel :=
  (p.1 &&& 0xFE, p.2.1 &&& 0xFE, p.2.2 &&& 0xFE)

/-- What `encode_lsb` does to the channel value at overall channel index
`k`: overwrite the LSB with bit `k` while bits remain, else leave it. -/
def upd (bits : List Bool) (k : Nat) (v : Nat) : Nat :=
  match bits[k]? with
  | some b => setLSB v b
  | none => v

/-! ### Bit-level lemmas -/

lemma bitVal_testBit_succ (b : Bool) (n : Nat) :
    (if b then (1:Nat) else 0).testBit (n+1) = false := by
  apply Nat.testBit_eq_false_of_lt
  have h2 : (2:Nat) ≤ 2 ^ (n+1) := by
    have h : (2:Nat) ^ 1 ≤ 2 ^ (n+1) := Nat.pow_le_pow_right (by omega) (by omega)
    rw [pow_one] at h
    exact h
  have : (if b then (1:Nat) else 0) < 2 := by cases b <;> norm_num
  omega

lemma setLSB_land (v : Nat) (b : Bool) : setLSB v b &&& 0xFE = v &&& 0xFE := by
  apply Nat.eq_of_testBit_eq
  intro i
  simp only [setLSB, Nat.testBit_land, Nat.testBit_lor]
  rcases i with _ | n
  · have h254 : Nat.testBit 254 0 = false := by decide
    simp [h254]
  · have hb := bitVal_testBit_succ b n
    simp [hb, Bool.and_assoc]

lemma setLSB_land_one (v : Nat) (b : Bool) :
    setLSB v b &&& 1 = (if b then 1 else 0) := by
  apply Nat.eq_of_testBit_eq
  intro i
  simp only [setLSB, Nat.testBit_land, Nat.testBit_lor]
  rcases i with _ | n
  · have h254 : Nat.testBit 254 0 = false := by decide
    have h1 : Nat.testBit 1 0 = true := by decide
    simp [h254, h1]
  · have hb := bitVal_testBit_succ b n
    have h1 : Nat.testBit 1 (n+1) = false := by
      apply Nat.testBit_eq_false_of_lt
      have h : (2:Nat) ^ 1 ≤ 2 ^ (n+1) := Nat.pow_le_pow_right (by omega) (by omega)
      rw [pow_one] at h
      omega
    simp [hb, h1]

lemma getLSB_setLSB (v : Nat) (b : Bool) : getLSB (setLSB v b) = b := by
  unfold getLSB
  rw [setLSB_land_one]
  cases b <;> decide

/-! ### The fuel of `binDigits` is irrelevant, and the Python recurrences hold -/

lemma binDigitsAux_fuel (fuel : Nat) : ∀ fuel' n, n ≤ fuel → n ≤ fuel' →
    binDigitsAux fuel n = binDigitsAux fuel' n := by
  induction fuel with
  | zero =>
    intro fuel' n h h'
    have : n = 0 := by omega
    subst this
    cases fuel' <;> rfl
  | succ fuel ih =>
    intro fuel' n h h'
    cases n with
    | zero => cases fuel' <;> rfl
    | succ m =>
      cases fuel' with
      | zero => omega
      | succ f =>
        show binDigitsAux fuel ((m+1) / 2) ++ _ = binDigitsAux f ((m+1) / 2) ++ _
        rw [ih f ((m+1) / 2) (by omega) (by omega)]

lemma binDigits_rec (n : Nat) (h : n ≠ 0) :
    binDigits n = binDigits (n / 2) ++ [n % 2 == 1] := by
  obtain ⟨m, rfl⟩ : ∃ m, n = m + 1 := ⟨n - 1, by omega⟩
  show binDigitsAux m ((m+1)/2) ++ _ = binDigitsAux ((m+1)/2) ((m+1)/2) ++ _
  rw [binDigitsAux_fuel m ((m+1)/2) ((m+1)/2) (by omega) (by omega)]

lemma isPrefixOf_short_false {l : List Char} (h : l.length < 9) :
    delimiter.isPrefixOf l = false := by
  by_contra hx
  simp only [Bool.not_eq_false, List.isPrefixOf_iff_prefix] at hx
  have hle := hx.length_le
  have h9 : delimiter.length = 9 := by decide
  omega

lemma removeDelim_eq (c : Char) (cs : List Char) :
    removeDelim (c :: cs) =
      if delimiter.isPrefixOf (c :: cs) then removeDelim (cs.drop 8)
      else c :: removeDelim cs := by
  rcases cs with _ | ⟨c1, _ | ⟨c2, _ | ⟨c3, _ | ⟨c4, _ | ⟨c5, _ | ⟨c6, _ | ⟨c7, _ | ⟨c8, rest⟩⟩⟩⟩⟩⟩⟩⟩ <;>
    first
      | rfl
      | (rw [if_neg (by rw [isPrefixOf_short_false (by simp)]; simp)]; rfl)

/-! ### The encoding loop, channel by channel -/

lemma encodePixels_nil_bits (P : List Pixel) : encodePixels P [] = P := by
  induction P with
  | nil => rfl
  | cons p rest ih => simp [encodePixels, ih]

lemma encodePixels_length (P : List Pixel) (bits : List Bool) :
    (encodePixels P bits).length = P.length := by
  induction P, bits using encodePixels.induct <;> simp [encodePixels, *]

lemma extractBits_cons (p : Pixel) (rest : List Pixel) :
    extractBits (p :: rest) =
      getLSB p.1 :: getLSB p.2.1 :: getLSB p.2.2 :: extractBits rest := by
  simp [extractBits]

lemma extractBits_length (P : List Pixel) : (extractBits P).length = 3 * P.length := by
  induction P with
  | nil => rfl
  | cons p rest ih => rw [extractBits_cons]; simp [ih]; omega

lemma extract_encode (P : List Pixel) (bits : List Bool)
    (h : bits.length ≤ 3 * P.length) :
    extractBits (encodePixels P bits) = bits ++ (extractBits P).drop bits.length := by
  induction P, bits using encodePixels.induct with
  | case1 bits =>
    have : bits = [] := by
      cases bits with
      | nil => rfl
      | cons x xs => simp at h
    subst this
    rfl
  | case2 r g b rest ih =>
    rw [encodePixels, extractBits_cons, encodePixels_nil_bits]
    simp [extractBits_cons]
  | case3 r g b rest b0 ih =>
    rw [encodePixels, extractBits_cons, encodePixels_nil_bits]
    simp [extractBits_cons, getLSB_setLSB]
  | case4 r g b rest b0 b1 ih =>
    rw [encodePixels, extractBits_cons, encodePixels_nil_bits]
    simp [extractBits_cons, getLSB_setLSB]
  | case5 r g b rest b0 b1 b2 bs ih =>
    rw [encodePixels, extractBits_cons]
    simp only [List.length_cons] at h
    rw [ih (by omega)]
    simp [extractBits_cons, getLSB_setLSB]

lemma upd_nil (k : Nat) (v : Nat) : upd [] k v = v := by simp [upd]

lemma upd_cons_succ (x : Bool) (l : List Bool) (k : Nat) (v : Nat) :
    upd (x :: l) (k+1) v = upd l k v := by simp [upd]

lemma upd_oob (bits : List Bool) (k : Nat) (hk : bits.length ≤ k) (v : Nat) :
    upd bits k v = v := by
  simp [upd, List.getElem?_eq_none hk]

lemma encodePixels_getElem (P : List Pixel) (bits : List Bool) (j : Nat) :
    (encodePixels P bits)[j]? = P[j]?.map (fun p =>
      (upd bits (3*j) p.1, upd bits (3*j+1) p.2.1, upd bits (3*j+2) p.2.2)) := by
  induction P, bits using encodePixels.induct generalizing j with
  | case1 bits => simp [encodePixels]
  | case2 r g b rest ih =>
    rcases j with _ | n
    · simp [encodePixels, upd]
    · rw [encodePixels]
      simp only [List.getElem?_cons_succ, ih n]
      cases hx : rest[n]? with
      | none => rfl
      | some p =>
        simp only [Option.map_some']
        rw [upd_nil, upd_nil, upd_nil, upd_nil, upd_nil, upd_nil]
  | case3 r g b rest b0 ih =>
    rcases j with _ | n
    · simp [encodePixels, upd]
    · rw [encodePixels]
      simp only [List.getElem?_cons_succ, ih n]
      cases hx : rest[n]? with
      | none => rfl
      | some p =>
        simp only [Option.map_some']
        have h3 : 3 * (n+1) + 2 = (3*n+3) + 1 + 1 := by omega
        have h2 : 3 * (n+1) + 1 = (3*n+2) + 1 + 1 := by omega
        have h1 : 3 * (n+1) = (3*n+1) + 1 + 1 := by omega
        rw [h3, h2, h1, upd_cons_succ, upd_cons_succ, upd_cons_succ,
            upd_nil, upd_nil, upd_nil, upd_nil, upd_nil, upd_nil]
  | case4 r g b rest b0 b1 ih =>
    rcases j with _ | n
    · simp [encodePixels, upd]
    · rw [encodePixels]
      simp only [List.getElem?_cons_succ, ih n]
      cases hx : rest[n]? with
      | none => rfl
      | some p =>
        simp only [Option.map_some']
        have h3 : 3 * (n+1) + 2 = (3*n+3) + 1 + 1 := by omega
        have h2 : 3 * (n+1) + 1 = (3*n+2) + 1 + 1 := by omega
        have h1 : 3 * (n+1) = (3*n+1) + 1 + 1 := by omega
        rw [h3, h2, h1, upd_cons_succ, upd_cons_succ, upd_cons_succ,
            upd_cons_succ, upd_cons_succ, upd_cons_succ,
            upd_nil, upd_nil, upd_nil, upd_nil, upd_nil, upd_nil]
  | case5 r g b rest b0 b1 b2 bs ih =>
    rcases j with _ | n
    · simp [encodePixels, upd]
    · rw [encodePixels]
      simp only [List.getElem?_cons_succ, ih n]
      cases hx : rest[n]? with
      | none => rfl
      | some p =>
        simp only [Option.map_some']
        have h3 : 3 * (n+1) + 2 = (3*n+2) + 1 + 1 + 1 := by omega
        have h2 : 3 * (n+1) + 1 = (3*n+1) + 1 + 1 + 1 := by omega
        have h1 : 3 * (n+1) = (3*n) + 1 + 1 + 1 := by omega
        rw [h3, h2, h1, upd_cons_succ, upd_cons_succ, upd_cons_succ,
            upd_cons_succ, upd_cons_succ, upd_cons_succ,
            upd_cons_succ, upd_cons_succ, upd_cons_succ]

/-! ### Bytes, characters and the decoding loop -/

set_option maxRecDepth 40000 in
lemma format08b_facts : ∀ n, n < 256 →
    (format08b n).length = 8 ∧ bitsToNat (format08b n) = n := by decide

lemma charBits_length (c : Char) (h : c.toNat < 256) : (charBits c).length = 8 :=
  (format08b_facts c.toNat h).1

lemma char_roundtrip (c : Char) (h : c.toNat < 256) :
    Char.ofNat (bitsToNat (charBits c)) = c := by
  show Char.ofNat (bitsToNat (format08b c.toNat)) = c
  rw [(format08b_facts c.toNat h).2, Char.ofNat_toNat]

lemma decodeLoop_cons8 (l rest : List Bool) (msg : List Char) (h : l.length = 8) :
    decodeLoop (l ++ rest) msg =
      (if delimiter.isSuffixOf (msg ++ [Char.ofNat (bitsToNat l)]) then
        some (removeDelim (msg ++ [Char.ofNat (bitsToNat l)]))
      else decodeLoop rest (msg ++ [Char.ofNat (bitsToNat l)])) := by
  rcases l with _ | ⟨b0, _ | ⟨b1, _ | ⟨b2, _ | ⟨b3, _ | ⟨b4, _ | ⟨b5, _ | ⟨b6, _ | ⟨b7, _ | ⟨b8, t⟩⟩⟩⟩⟩⟩⟩⟩⟩ <;>
    first
      | (simp only [List.cons_append, List.nil_append]; rfl)
      | (simp only [List.length_cons, List.length_nil] at h; omega)

lemma bitstream_cons (c : Char) (cs : List Char) :
    bitstream (c :: cs) = charBits c ++ bitstream cs := by
  simp [bitstream]

lemma suffix_cons_of_suffix {l t : List Char} (c : Char) (h : l <:+ t) :
    l <:+ c :: t := by
  obtain ⟨s, rfl⟩ := h
  exact ⟨c :: s, rfl⟩

lemma delim_suffix_append (acc M : List Char) :
    delimiter.isSuffixOf (acc ++ (M ++ delimiter)) = true := by
  simp only [ List.isSuffixOf_iff_suffix]
  exact ⟨acc ++ M, by simp⟩

lemma decodeLoop_run (cs : List Char) (acc : List Char) (rest : List Bool)
    (h256 : ∀ c ∈ cs, c.toNat < 256)
    (hne : cs ≠ [])
    (hearly : ∀ k, k < cs.length → delimiter.isSuffixOf (acc ++ cs.take k) = false)
    (hend : delimiter.isSuffixOf (acc ++ cs) = true) :
    decodeLoop (bitstream cs ++ rest) acc = some (removeDelim (acc ++ cs)) := by
  induction cs generalizing acc with
  | nil => exact absurd rfl hne
  | cons c cs ih =>
    have hc : c.toNat < 256 := h256 c (by simp)
    rw [bitstream_cons, List.append_assoc,
        decodeLoop_cons8 _ _ _ (charBits_length c hc), char_roundtrip c hc]
    rcases cs with _ | ⟨d, ds⟩
    · rw [if_pos hend]
    · have h1 : delimiter.isSuffixOf (acc ++ [c]) = false := by
        have hx := hearly 1 (by simp)
        simpa using hx
      rw [if_neg (by simp [h1])]
      have hrun := ih (acc ++ [c]) (fun x hx => h256 x (by simp [hx]))
        (by simp)
        (fun k hk => by
          have hx := hearly (k+1)
            (by simp only [List.length_cons] at hk ⊢; omega)
          rw [List.take_succ_cons, List.append_cons] at hx
          exact hx)
        (by rw [← List.append_cons]; exact hend)
      rw [hrun, ← List.append_cons]

/-! ### Stripping the delimiter -/

lemma delim_isSuffixOf_self : delimiter.isSuffixOf delimiter = true := by decide

lemma take9_of_isPrefixOf {t : List Char} (h : delimiter.isPrefixOf t = true) :
    t.take 9 = delimiter := by
  rw [ List.isPrefixOf_iff_prefix] at h
  obtain ⟨s, rfl⟩ := h
  have h9 : (delimiter).length = 9 := by decide
  rw [← h9, List.take_left]

lemma isSuffixOf_false_of_cons {l t : List Char} (c : Char)
    (h : l.isSuffixOf (c :: t) = false) : l.isSuffixOf t = false := by
  by_contra hx
  simp only [Bool.not_eq_false, List.isSuffixOf_iff_suffix] at hx
  have hs := suffix_cons_of_suffix c hx
  rw [← List.isSuffixOf_iff_suffix] at hs
  rw [hs] at h
  exact Bool.noConfusion h

lemma removeDelim_append_delim (M : List Char)
    (hearly : ∀ k, k < M.length + 9 →
      delimiter.isSuffixOf ((M ++ delimiter).take k) = false) :
    removeDelim (M ++ delimiter) = M := by
  induction M with
  | nil => decide
  | cons c M ih =>
    have hpre : delimiter.isPrefixOf (c :: (M ++ delimiter)) = false := by
      by_contra hx
      simp only [Bool.not_eq_false] at hx
      have h9 := take9_of_isPrefixOf hx
      have h := hearly 9 (by simp only [List.length_cons]; omega)
      rw [List.cons_append] at h
      rw [h9] at h
      rw [delim_isSuffixOf_self] at h
      exact Bool.noConfusion h
    rw [List.cons_append, removeDelim_eq]
    rw [if_neg (by simp [hpre])]
    congr 1
    apply ih
    intro k hk
    have h := hearly (k+1) (by simp only [List.length_cons]; omega)
    rw [List.cons_append, List.take_succ_cons] at h
    exact isSuffixOf_false_of_cons c h

/-! ### Totality and truncation behaviour of the decoding loop -/

lemma decodeLoop_short (bits : List Bool) (acc : List Char) (h : bits.length < 8) :
    decodeLoop bits acc = none := by
  rcases bits with _ | ⟨b0, _ | ⟨b1, _ | ⟨b2, _ | ⟨b3, _ | ⟨b4, _ | ⟨b5, _ | ⟨b6, _ | ⟨b7, t⟩⟩⟩⟩⟩⟩⟩⟩ <;>
    first
      | rfl
      | (simp only [List.length_cons] at h; omega)

lemma toChars_cons8 (l rest : List Bool) (h : l.length = 8) :
    toChars (l ++ rest) = Char.ofNat (bitsToNat l) :: toChars rest := by
  rcases l with _ | ⟨b0, _ | ⟨b1, _ | ⟨b2, _ | ⟨b3, _ | ⟨b4, _ | ⟨b5, _ | ⟨b6, _ | ⟨b7, _ | ⟨b8, t⟩⟩⟩⟩⟩⟩⟩⟩⟩ <;>
    simp_all [toChars]

lemma take8_length {bits : List Bool} (h8 : 8 ≤ bits.length) :
    (bits.take 8).length = 8 := by
  simp [List.length_take]
  omega

theorem decodeLoop_none (bits : List Bool) (acc : List Char)
    (h : ∀ k, delimiter.isSuffixOf (acc ++ (toChars bits).take k) = false) :
    decodeLoop bits acc = none := by
  by_cases h8 : 8 ≤ bits.length
  · have htc : toChars bits =
        Char.ofNat (bitsToNat (bits.take 8)) :: toChars (bits.drop 8) := by
      conv_lhs => rw [← List.take_append_drop 8 bits]
      exact toChars_cons8 _ _ (take8_length h8)
    have hsplit : decodeLoop bits acc =
        decodeLoop (bits.take 8 ++ bits.drop 8) acc := by
      rw [List.take_append_drop]
    rw [hsplit, decodeLoop_cons8 _ _ _ (take8_length h8)]
    have h1 : delimiter.isSuffixOf
        (acc ++ [Char.ofNat (bitsToNat (bits.take 8))]) = false := by
      have hx := h 1
      rw [htc] at hx
      simpa using hx
    rw [if_neg (by rw [h1]; exact fun hc => Bool.false_ne_true hc)]
    apply decodeLoop_none (bits.drop 8) _
    intro k
    have hx := h (k+1)
    rw [htc] at hx
    simpa using hx
  · exact decodeLoop_short bits acc (by omega)
termination_by bits.length
decreasing_by
  simp only [List.length_drop]
  omega

theorem decodeLoop_take (bits : List Bool) (acc : List Char) :
    decodeLoop bits acc = decodeLoop (bits.take (8 * (bits.length / 8))) acc := by
  by_cases h8 : 8 ≤ bits.length
  · have harith : 8 * (bits.length / 8) = 8 + 8 * ((bits.length - 8) / 8) := by
      omega
    have hsplit : decodeLoop bits acc =
        decodeLoop (bits.take 8 ++ bits.drop 8) acc := by
      rw [List.take_append_drop]
    have htake : bits.take (8 * (bits.length / 8)) =
        bits.take 8 ++ (bits.drop 8).take (8 * ((bits.length - 8) / 8)) := by
      rw [harith, List.take_add]
    rw [hsplit, htake, decodeLoop_cons8 _ _ _ (take8_length h8),
        decodeLoop_cons8 _ _ _ (take8_length h8)]
    by_cases hs : delimiter.isSuffixOf
        (acc ++ [Char.ofNat (bitsToNat (bits.take 8))]) = true
    · rw [if_pos hs, if_pos hs]
    · rw [if_neg hs, if_neg hs]
      have := decodeLoop_take (bits.drop 8)
        (acc ++ [Char.ofNat (bitsToNat (bits.take 8))])
      rw [this]
      congr 2
      simp [List.length_drop]
  · have h0 : bits.length / 8 = 0 := by omega
    rw [h0]
    simp only [Nat.mul_zero, List.take_zero]
    rw [decodeLoop_short bits acc (by omega)]
    rfl
termination_by bits.length
decreasing_by
  simp only [List.length_drop]
  omega

/-! ### Character bounds of decoded strings -/

lemma bitstream_length (s : List Char) (h : ∀ c ∈ s, c.toNat < 256) :
    (bitstream s).length = 8 * s.length := by
  induction s with
  | nil => rfl
  | cons c cs ih =>
    rw [bitstream_cons]
    rw [List.length_append, charBits_length c (h c (by simp)),
        ih (fun x hx => h x (by simp [hx]))]
    simp
    omega

lemma delim_chars : ∀ c ∈ delimiter, c.toNat < 256 := by decide

lemma bitsToNat8_char_lt :
    ∀ b0 b1 b2 b3 b4 b5 b6 b7 : Bool,
      (Char.ofNat (bitsToNat [b0,b1,b2,b3,b4,b5,b6,b7])).toNat < 256 := by decide

lemma char_of_take8_lt {bits : List Bool} (h8 : 8 ≤ bits.length) :
    (Char.ofNat (bitsToNat (bits.take 8))).toNat < 256 := by
  have h := take8_length h8
  rcases hl : bits.take 8 with _ | ⟨b0, _ | ⟨b1, _ | ⟨b2, _ | ⟨b3, _ | ⟨b4, _ | ⟨b5, _ | ⟨b6, _ | ⟨b7, _ | ⟨b8, t⟩⟩⟩⟩⟩⟩⟩⟩⟩ <;>
    rw [hl] at h <;> simp_all
  exact bitsToNat8_char_lt b0 b1 b2 b3 b4 b5 b6 b7

lemma mem_removeDelim_aux : ∀ (n : Nat) (s : List Char), s.length ≤ n →
    ∀ c, c ∈ removeDelim s → c ∈ s := by
  intro n
  induction n with
  | zero =>
    intro s hs c h
    rcases s with _ | ⟨x, cs⟩
    · simp [removeDelim] at h
    · simp at hs
  | succ n ih =>
    intro s hs c h
    rcases s with _ | ⟨x, cs⟩
    · simp [removeDelim] at h
    · rw [removeDelim_eq] at h
      by_cases hif : delimiter.isPrefixOf (x :: cs) = true
      · rw [if_pos hif] at h
        have hm := ih (cs.drop 8)
          (by simp only [List.length_cons] at hs; simp only [List.length_drop]; omega) c h
        exact List.mem_cons_of_mem x (List.mem_of_mem_drop hm)
      · rw [if_neg hif] at h
        rcases List.mem_cons.mp h with h1 | h2
        · exact h1 ▸ List.mem_cons_self x cs
        · exact List.mem_cons_of_mem x
            (ih cs (by simp only [List.length_cons] at hs; omega) c h2)

lemma mem_removeDelim {c : Char} {s : List Char} (h : c ∈ removeDelim s) : c ∈ s :=
  mem_removeDelim_aux s.length s (le_refl _) c h

theorem decodeLoop_chars (bits : List Bool) (acc : List Char)
    (hacc : ∀ c ∈ acc, c.toNat < 256) (s : List Char)
    (h : decodeLoop bits acc = some s) : ∀ c ∈ s, c.toNat < 256 := by
  by_cases h8 : 8 ≤ bits.length
  · rw [show bits = bits.take 8 ++ bits.drop 8 from (List.take_append_drop 8 bits).symm,
        decodeLoop_cons8 _ _ _ (take8_length h8)] at h
    have hc0 : (Char.ofNat (bitsToNat (bits.take 8))).toNat < 256 := char_of_take8_lt h8
    have hacc2 : ∀ c ∈ acc ++ [Char.ofNat (bitsToNat (bits.take 8))], c.toNat < 256 := by
      intro c hc
      rcases List.mem_append.mp hc with h1 | h2
      · exact hacc c h1
      · simp at h2
        exact h2 ▸ hc0
    split at h
    · intro c hc
      have := mem_removeDelim (Option.some.inj h ▸ hc)
      exact hacc2 c this
    · exact decodeLoop_chars (bits.drop 8) _ hacc2 s h
  · rw [decodeLoop_short bits acc (by omega)] at h
    cases h
termination_by bits.length
decreasing_by
  simp only [List.length_drop]
  omega

/-! ### Claim theorems -/

/-- C2: a framed bitstream of length exactly `3 × len(P)` is encoded
successfully, while length `3 × len(P) + 1` or more fails with
`CapacityExceeded` reporting `(3 × len(P)) / 8` characters. -/
theorem C2_capacity_boundary (P : List Pixel) (M : List Char) :
    ((bitstream (M ++ delimiter)).length = 3 * P.length →
      encode_lsb P M = .ok (encodePixels P (bitstream (M ++ delimiter)))) ∧
    (3 * P.length + 1 ≤ (bitstream (M ++ delimiter)).length →
      encode_lsb P M = .capacityExceeded (3 * P.length / 8)) := by
  unfold encode_lsb
  constructor
  · intro h
    rw [if_neg (by omega)]
  · intro h
    rw [if_pos (by omega)]
    congr 1
    omega

set_option maxRecDepth 1000000 in
/-- C2 witness: the empty message frames to 72 bits, exactly the capacity
of 24 pixels; 23 pixels (69 bits) are too few. -/
theorem C2_capacity_boundary_witness :
    encode_lsb (List.replicate 24 ((0:Nat),(0:Nat),(0:Nat))) [] =
      .ok (encodePixels (List.replicate 24 ((0:Nat),(0:Nat),(0:Nat)))
        (bitstream ([] ++ delimiter))) ∧
    encode_lsb (List.replicate 23 ((0:Nat),(0:Nat),(0:Nat))) [] =
      .capacityExceeded
        (3 * (List.replicate 23 ((0:Nat),(0:Nat),(0:Nat)) : List Pixel).length / 8) :=
  ⟨(C2_capacity_boundary (List.replicate 24 ((0:Nat),(0:Nat),(0:Nat))) []).1 (by decide),
   (C2_capacity_boundary (List.replicate 23 ((0:Nat),(0:Nat),(0:Nat))) []).2 (by decide)⟩

/-- C9 (implicit): since the 9-character delimiter is always framed in,
encoding succeeds iff `8 × (len(M) + 9) ≤ 3 × len(P)`; a message of the
reported maximum character count `(3 × len(P)) / 8` always fails. -/
theorem C9_delimiter_overhead (P : List Pixel) (M : List Char)
    (h256 : ∀ c ∈ M, c.toNat < 256) :
    ((∃ out, encode_lsb P M = .ok out) ↔ 8 * (M.length + 9) ≤ 3 * P.length) ∧
    (0 < P.length → M.length = 3 * P.length / 8 →
      encode_lsb P M = .capacityExceeded (3 * P.length / 8)) := by
  have hlen : (bitstream (M ++ delimiter)).length = 8 * (M.length + 9) := by
    rw [bitstream_length _ (by
      intro c hc
      rcases List.mem_append.mp hc with h | h
      · exact h256 c h
      · exact delim_chars c h)]
    have h9 : delimiter.length = 9 := by decide
    rw [List.length_append, h9]
  constructor
  · constructor
    · rintro ⟨out, hout⟩
      by_contra hc
      unfold encode_lsb at hout
      rw [if_pos (by omega)] at hout
      cases hout
    · intro h
      refine ⟨encodePixels P (bitstream (M ++ delimiter)), ?_⟩
      unfold encode_lsb
      rw [if_neg (by omega)]
  · intro hP hM
    unfold encode_lsb
    rw [if_pos (by omega)]
    congr 1
    omega

set_option maxRecDepth 1000000 in
/-- C9 witness: on a single pixel the reported maximum is `0` characters,
and the empty message indeed fails with that diagnostic. -/
theorem C9_delimiter_overhead_witness :
    encode_lsb [((0:Nat),(0:Nat),(0:Nat))] [] =
      .capacityExceeded (3 * ([((0:Nat),(0:Nat),(0:Nat))] : List Pixel).length / 8) :=
  (C9_delimiter_overhead [((0:Nat),(0:Nat),(0:Nat))] [] (by decide)).2
    (by decide) (by decide)

set_option maxRecDepth 1000000 in
/-- C6 (code bug): a character with code point 256 is not rejected:
`format(ord(char), '08b')` silently yields nine bits and `encode_lsb`
embeds the corrupted bitstream. -/
theorem C6_no_rejection :
    (charBits (Char.ofNat 256)).length = 9 ∧
    encode_lsb (List.replicate 27 ((0:Nat),(0:Nat),(0:Nat))) [Char.ofNat 256] =
      .ok (encodePixels (List.replicate 27 ((0:Nat),(0:Nat),(0:Nat)))
        (bitstream ([Char.ofNat 256] ++ delimiter))) := by
  exact ⟨by decide, by decide⟩

set_option maxRecDepth 1000000 in
/-- C8 counterexample: the scenario as stated is impossible: `"HI"` plus
the delimiter needs 88 bits but 10 pixels provide only 30, so `encode_lsb`
fails with `CapacityExceeded`, reporting at most 3 characters. -/
theorem C8_counterexample :
    (bitstream ("HI".data ++ delimiter)).length = 88 ∧
    encode_lsb (List.replicate 10 ((0:Nat),(0:Nat),(0:Nat))) "HI".data =
      .capacityExceeded 3 := by
  exact ⟨by decide, by decide⟩

set_option maxRecDepth 1000000 in
/-- C8 (amended): on a 30-pixel (90-channel) all-zero carrier, encoding
`"HI"` succeeds, the first 16 output LSBs are `0100100001001001` in
R,G,B channel order, the next 72 channels hold the delimiter bits, and
decoding returns exactly `"HI"`. -/
theorem C8_concrete_scenario :
    encode_lsb (List.replicate 30 ((0:Nat),(0:Nat),(0:Nat))) "HI".data =
      .ok (encodePixels (List.replicate 30 ((0:Nat),(0:Nat),(0:Nat)))
        (bitstream ("HI".data ++ delimiter))) ∧
    (extractBits (encodePixels (List.replicate 30 ((0:Nat),(0:Nat),(0:Nat)))
        (bitstream ("HI".data ++ delimiter)))).take 16 =
      [false, true, false, false, true, false, false, false,
       false, true, false, false, true, false, false, true] ∧
    ((extractBits (encodePixels (List.replicate 30 ((0:Nat),(0:Nat),(0:Nat)))
        (bitstream ("HI".data ++ delimiter)))).drop 16).take 72 =
      bitstream delimiter ∧
    decode_lsb (encodePixels (List.replicate 30 ((0:Nat),(0:Nat),(0:Nat)))
        (bitstream ("HI".data ++ delimiter))) = some "HI".data := by
  exact ⟨by decide, by decide, by decide, by decide⟩

/-- C10 (implicit): when `3 × len(P)` is not a multiple of 8, the final
group of `3 × len(P) mod 8` extracted bits is ignored: decoding equals
decoding the truncated bit list, so the trailing bits contribute no
character, never affect delimiter matching, and cause no error. -/
theorem C10_trailing_bits (P : List Pixel) (h : 3 * P.length % 8 ≠ 0) :
    decode_lsb P =
      decodeLoop ((extractBits P).take (8 * (3 * P.length / 8))) [] ∧
    (extractBits P).length - 8 * (3 * P.length / 8) = 3 * P.length % 8 := by
  constructor
  · rw [decode_lsb, decodeLoop_take, extractBits_length]
  · rw [extractBits_length]
    omega

/-- C10 witness: one pixel yields three bits, all ignored. -/
theorem C10_trailing_bits_witness :
    decode_lsb [((1:Nat),(1:Nat),(1:Nat))] =
      decodeLoop ((extractBits [((1:Nat),(1:Nat),(1:Nat))]).take
        (8 * (3 * ([((1:Nat),(1:Nat),(1:Nat))] : List Pixel).length / 8))) [] ∧
    (extractBits [((1:Nat),(1:Nat),(1:Nat))]).length -
        8 * (3 * ([((1:Nat),(1:Nat),(1:Nat))] : List Pixel).length / 8) =
      3 * ([((1:Nat),(1:Nat),(1:Nat))] : List Pixel).length % 8 :=
  C10_trailing_bits [((1:Nat),(1:Nat),(1:Nat))] (by decide)

/-- C5: whenever no prefix of the LSB-derived character stream ends with
the delimiter, `decode_lsb` returns `NotFound` (`none`), a normal
outcome, not an error. -/
theorem C5_not_found (P : List Pixel)
    (h : ∀ k, k ≤ (toChars (extractBits P)).length →
      delimiter.isSuffixOf ((toChars (extractBits P)).take k) = false) :
    decode_lsb P = none := by
  rw [decode_lsb]
  apply decodeLoop_none
  intro k
  rw [List.nil_append]
  by_cases hk : k ≤ (toChars (extractBits P)).length
  · exact h k hk
  · have hx := h (toChars (extractBits P)).length (le_refl _)
    rw [List.take_length] at hx
    rw [List.take_of_length_le (by omega)]
    exact hx

/-- C5 witness: the empty pixel sequence and an all-zero 8-pixel carrier
(whose character stream is three NUL characters) both decode to `none`. -/
theorem C5_not_found_witness :
    decode_lsb [] = none ∧
    decode_lsb (List.replicate 8 ((0:Nat),(0:Nat),(0:Nat))) = none :=
  ⟨C5_not_found [] (by decide),
   C5_not_found (List.replicate 8 ((0:Nat),(0:Nat),(0:Nat))) (by decide)⟩

/-- C7: `decode_lsb` is a total function on arbitrary pixel sequences
(in particular on any permutation of an encoded one): it always returns
either `none` or a string, every character of which is a single-byte
code; no out-of-range access can occur. -/
theorem C7_decode_total (P : List Pixel) :
    decode_lsb P = none ∨
      ∃ s, decode_lsb P = some s ∧ ∀ c ∈ s, c.toNat < 256 := by
  rcases hd : decode_lsb P with _ | s
  · exact Or.inl rfl
  · right
    refine ⟨s, rfl, ?_⟩
    rw [decode_lsb] at hd
    exact decodeLoop_chars (extractBits P) [] (by simp) s hd

lemma upd_land (bits : List Bool) (k : Nat) (v : Nat) :
    upd bits k v &&& 0xFE = v &&& 0xFE := by
  unfold upd
  split
  · exact setLSB_land v _
  · rfl

lemma encode_ok_inv {P : List Pixel} {M : List Char} {out : List Pixel}
    (h : encode_lsb P M = .ok out) :
    out = encodePixels P (bitstream (M ++ delimiter)) ∧
    (bitstream (M ++ delimiter)).length ≤ 3 * P.length := by
  by_cases hcond : (bitstream (M ++ delimiter)).length > P.length * 3
  · unfold encode_lsb at h
    rw [if_pos hcond] at h
    exact EncodeResult.noConfusion h
  · unfold encode_lsb at h
    rw [if_neg hcond] at h
    exact ⟨(EncodeResult.ok.inj h).symm, by omega⟩

/-- C4: a successful encode preserves length and order, agrees with the
input on the seven high-order bits of every channel
(`(encoded & 0xFE) = (original & 0xFE)`), and copies every channel past
the end of the framed bitstream completely unchanged. -/
theorem C4_non_mutation (P : List Pixel) (M : List Char) (out : List Pixel)
    (h : encode_lsb P M = .ok out) :
    out.length = P.length ∧
    (∀ j : Nat, out[j]?.map highBits = P[j]?.map highBits) ∧
    (∀ j k, k < 3 → (bitstream (M ++ delimiter)).length ≤ 3 * j + k →
      out[j]?.map (fun p => chan p k) = P[j]?.map (fun p => chan p k)) := by
  obtain ⟨rfl, -⟩ := encode_ok_inv h
  refine ⟨encodePixels_length P _, ?_, ?_⟩
  · intro j
    rw [encodePixels_getElem, Option.map_map]
    congr 1
    funext p
    simp only [Function.comp, highBits]
    rw [upd_land, upd_land, upd_land]
  · intro j k hk3 hkoob
    rw [encodePixels_getElem, Option.map_map]
    congr 1
    funext p
    simp only [Function.comp]
    rcases (by omega : k = 0 ∨ k = 1 ∨ k = 2) with rfl | rfl | rfl
    · exact upd_oob (bitstream (M ++ delimiter)) (3*j) (by omega) p.1
    · exact upd_oob (bitstream (M ++ delimiter)) (3*j+1) (by omega) p.2.1
    · exact upd_oob (bitstream (M ++ delimiter)) (3*j+2) (by omega) p.2.2

set_option maxRecDepth 1000000 in
/-- C4 witness: encoding `"HI"` into 30 pixels with channel value 7. -/
theorem C4_non_mutation_witness :
    (encodePixels (List.replicate 30 ((7:Nat),(7:Nat),(7:Nat)))
        (bitstream ("HI".data ++ delimiter))).length =
      (List.replicate 30 ((7:Nat),(7:Nat),(7:Nat)) : List Pixel).length ∧
    (∀ j : Nat, (encodePixels (List.replicate 30 ((7:Nat),(7:Nat),(7:Nat)))
        (bitstream ("HI".data ++ delimiter)))[j]?.map highBits =
        (List.replicate 30 ((7:Nat),(7:Nat),(7:Nat)) : List Pixel)[j]?.map highBits) ∧
    (∀ j k, k < 3 → (bitstream ("HI".data ++ delimiter)).length ≤ 3 * j + k →
      (encodePixels (List.replicate 30 ((7:Nat),(7:Nat),(7:Nat)))
        (bitstream ("HI".data ++ delimiter)))[j]?.map (fun p => chan p k) =
        (List.replicate 30 ((7:Nat),(7:Nat),(7:Nat)) : List Pixel)[j]?.map
          (fun p => chan p k)) :=
  C4_non_mutation (List.replicate 30 ((7:Nat),(7:Nat),(7:Nat))) "HI".data _ (by decide)

/-- C3: on a successful encode, bit `i` of the framed bitstream lands in
channel `i mod 3` of output pixel `i div 3`, which equals the original
channel with only its least-significant bit replaced by that bit. -/
theorem C3_bit_placement (P : List Pixel) (M : List Char) (out : List Pixel)
    (i : Nat) (p : Pixel) (b : Bool)
    (h : encode_lsb P M = .ok out)
    (hb : (bitstream (M ++ delimiter))[i]? = some b)
    (hp : P[i / 3]? = some p) :
    out[i / 3]?.map (fun q => chan q (i % 3)) =
      some (setLSB (chan p (i % 3)) b) := by
  obtain ⟨rfl, -⟩ := encode_ok_inv h
  rw [encodePixels_getElem, hp]
  simp only [Option.map_some']
  congr 1
  rcases (by omega : i % 3 = 0 ∨ i % 3 = 1 ∨ i % 3 = 2) with h3 | h3 | h3 <;>
    rw [h3] <;> simp only [chan] <;> norm_num
  · have hi : 3 * (i / 3) = i := by omega
    rw [hi]
    unfold upd
    rw [hb]
  · have hi : 3 * (i / 3) + 1 = i := by omega
    rw [hi]
    unfold upd
    rw [hb]
  · have hi : 3 * (i / 3) + 2 = i := by omega
    rw [hi]
    unfold upd
    rw [hb]

set_option maxRecDepth 1000000 in
/-- C3 witness: bit 1 of the framed `"HI"` bitstream is written to the
green channel of the first pixel. -/
theorem C3_bit_placement_witness :
    (encodePixels (List.replicate 30 ((0:Nat),(0:Nat),(0:Nat)))
        (bitstream ("HI".data ++ delimiter)))[1 / 3]?.map
      (fun q => chan q (1 % 3)) =
      some (setLSB (chan ((0:Nat),(0:Nat),(0:Nat)) (1 % 3)) true) :=
  C3_bit_placement (List.replicate 30 ((0:Nat),(0:Nat),(0:Nat))) "HI".data _ 1
    ((0:Nat),(0:Nat),(0:Nat)) true (by decide) (by decide) (by decide)

set_option maxRecDepth 1000000 in
/-- C1 counterexample: the message `"|||END||"` (single-byte characters,
not containing the delimiter, fitting in 46 pixels) breaks the round-trip
law: the framed message starts with a delimiter occurrence spanning the
message/delimiter boundary, so decoding returns `""` instead of the
message. -/
theorem C1_counterexample :
    (∀ c ∈ "|||END||".data, c.toNat < 256) ∧
    ¬ (delimiter <:+: "|||END||".data) ∧
    (bitstream ("|||END||".data ++ delimiter)).length ≤
      3 * (List.replicate 46 ((0:Nat),(0:Nat),(0:Nat)) : List Pixel).length ∧
    encode_lsb (List.replicate 46 ((0:Nat),(0:Nat),(0:Nat))) "|||END||".data =
      .ok (encodePixels (List.replicate 46 ((0:Nat),(0:Nat),(0:Nat)))
        (bitstream ("|||END||".data ++ delimiter))) ∧
    decode_lsb (encodePixels (List.replicate 46 ((0:Nat),(0:Nat),(0:Nat)))
        (bitstream ("|||END||".data ++ delimiter))) = some [] ∧
    ("|||END||".data : List Char) ≠ [] := by
  exact ⟨by decide, by decide, by decide, by decide, by decide, by decide⟩

/-- C1 (amended round-trip law): for single-byte-character messages `M`
whose framed form `M ++ "|||END|||"` contains the delimiter only as its
final nine characters (no shorter prefix of the framed message ends with
the delimiter), and carriers `P` with `3 × len(P)` at least the framed
bitstream length, encoding succeeds and decoding the output returns
exactly `M`. -/
theorem C1_roundtrip (P : List Pixel) (M : List Char)
    (h256 : ∀ c ∈ M, c.toNat < 256)
    (hcap : (bitstream (M ++ delimiter)).length ≤ 3 * P.length)
    (hearly : ∀ k, k < M.length + 9 →
      delimiter.isSuffixOf ((M ++ delimiter).take k) = false) :
    encode_lsb P M = .ok (encodePixels P (bitstream (M ++ delimiter))) ∧
    decode_lsb (encodePixels P (bitstream (M ++ delimiter))) = some M := by
  have hall : ∀ c ∈ M ++ delimiter, c.toNat < 256 := by
    intro c hc
    rcases List.mem_append.mp hc with h | h
    · exact h256 c h
    · exact delim_chars c h
  have hlen9 : (M ++ delimiter).length = M.length + 9 := by
    have h9 : delimiter.length = 9 := by decide
    rw [List.length_append, h9]
  constructor
  · unfold encode_lsb
    rw [if_neg (by omega)]
  · rw [decode_lsb, extract_encode P _ hcap]
    rw [decodeLoop_run (M ++ delimiter) [] _ hall
      (by
        intro hx
        rw [hx] at hlen9
        simp at hlen9)
      (by
        intro k hk
        rw [List.nil_append]
        exact hearly k (by omega))
      (delim_suffix_append [] M)]
    rw [List.nil_append, removeDelim_append_delim M hearly]

set_option maxRecDepth 1000000 in
/-- C1 witness: `"HI"` round-trips through a 30-pixel all-zero carrier. -/
theorem C1_roundtrip_witness :
    encode_lsb (List.replicate 30 ((0:Nat),(0:Nat),(0:Nat))) "HI".data =
      .ok (encodePixels (List.replicate 30 ((0:Nat),(0:Nat),(0:Nat)))
        (bitstream ("HI".data ++ delimiter))) ∧
    decode_lsb (encodePixels (List.replicate 30 ((0:Nat),(0:Nat),(0:Nat)))
        (bitstream ("HI".data ++ delimiter))) = some "HI".data :=
  C1_roundtrip (List.replicate 30 ((0:Nat),(0:Nat),(0:Nat))) "HI".data
    (by decide) (by decide)
    (by
      intro k hk
      have hk11 : k < 11 := by
        have h2 : ("HI".data : List Char).length = 2 := by decide
        omega
      revert k
      decide)

end Stego
